import Mathlib

/-!
Verification development for the `mmc_importer` component of the
`triztian/mobile` repository (files `cmd/gobind/mmc_importer.go` and its
test file).

The Go code is shallowly embedded as executable Lean definitions:

* `isVNPart` models the Go function of the same name, whose body is
  `_, err := fmt.Fscanf(strings.NewReader(s), "v%d", &v); return err == nil`.
  The model follows the documented and implemented semantics of Go's
  `fmt` scanner for the format `"v%d"` (in `Fscanf` mode, where a newline
  in the input must match a newline in the format):
  the literal `v` must match the first rune; the `%d` verb first discards
  leading non-newline space runes (an encountered newline is an error),
  then accepts an optional `+`/`-` sign, then one or more ASCII decimal
  digits, and the resulting token is parsed with `strconv.ParseInt(_, 10, 64)`,
  which fails when the value is outside the signed 64-bit range.  Scanning
  stops after the digits: trailing characters are NOT examined.
* `removeMajorVersionFromPath` models the Go function of the same name:
  split on `/`, drop the parts accepted by `isVNPart`, remember whether the
  last part was such a part ending in `"`, rejoin with `/`, re-append the
  quote in that case, and return the result together with the length
  difference.
* `Import` models the method `(*mmcImporter).Import` with its external
  collaborators (the standard importer, `build.Context.Import`, file
  reading, `parser.ParseFile`, `types.Config.Check`) supplied as an
  explicit environment, the receiver's `stdImporter` field as explicit
  state, and a ghost call log counting fallback collaborator invocations.

Strings are modelled as `List Char` internally (Go iterates runes here;
all splitting/joining is on the ASCII `/`), wrapped into `String` at the
interfaces.  Lengths are rune counts.
-/

namespace MmcImporter

/-- The rune table used by Go's `fmt` scanner to decide whether a rune is a
space (`fmt/scan.go`, `var space`). -/
def goIsSpace (c : Char) : Bool :=
  let n := c.toNat
  (9 ≤ n && n ≤ 13) || n = 32 || n = 133 || n = 160 || n = 0x1680 ||
    (0x2000 ≤ n && n ≤ 0x200a) || n = 0x2028 || n = 0x2029 ||
    n = 0x202f || n = 0x205f || n = 0x3000

/-- The ASCII decimal digits accepted by the `%d` verb
(`decimalDigits = "0123456789"` in `fmt/scan.go`). -/
def isDecDigit (c : Char) : Bool :=
  48 ≤ c.toNat && c.toNat ≤ 57

/-- `SkipSpace` of Go's `fmt` scanner in `Fscanf` mode (`nlIsSpace = false`):
space runes before the number are discarded, but an encountered newline is a
scan error (`none`). -/
def skipSpace : List Char → Option (List Char)
  | [] => some []
  | c :: cs =>
    if c = '\n' then none
    else if goIsSpace c then skipSpace cs
    else some (c :: cs)

/-- Numeric value of a list of decimal digit runes, as read by
`strconv.ParseInt` on the scanned token. -/
def natOfDigits (ds : List Char) : Nat :=
  ds.foldl (fun n c => 10 * n + (c.toNat - 48)) 0

/-- `s.accept(sign)` of the `%d` verb: consume one optional leading `+` or
`-`; the flag records a consumed `-` (the sign is part of the token handed
to `strconv.ParseInt`). -/
def scanSign : List Char → Bool × List Char
  | [] => (false, [])
  | c :: t =>
    if c = '+' then (false, t)
    else if c = '-' then (true, t)
    else (false, c :: t)

/-- The `%d` verb after the space skipping: optional sign, then one or more
decimal digits (`scanNumber`, a scan error if none), then
`strconv.ParseInt(tok, 10, 64)`, a scan error when the value is outside the
signed 64-bit range. Input after the digits is left unread. -/
def scanVNTail (r1 : List Char) : Bool :=
  let s := scanSign r1
  let ds := s.2.takeWhile isDecDigit
  if ds.isEmpty then false
  else if s.1 then decide (natOfDigits ds ≤ 2 ^ 63)
  else decide (natOfDigits ds ≤ 2 ^ 63 - 1)

/-- Model of the Go function `isVNPart`:
`_, err := fmt.Fscanf(strings.NewReader(s), "v%d", &v); return err == nil`
with `v : int` on a 64-bit platform, on a list of runes.

The literal `v` of the format must match the first rune; then the `%d`
verb runs: skip non-newline spaces (`skipSpace`), optional sign and digits
with the 64-bit range check (`scanVNTail`). -/
def isVNPartL : List Char → Bool
  | [] => false
  | c :: rest =>
    if c = 'v' then
      match skipSpace rest with
      | none => false
      | some r1 => scanVNTail r1
    else false

/-- The Go function `isVNPart` on a `String`. -/
def isVNPart (s : String) : Bool :=
  isVNPartL s.data

/-- `strings.Split(l, "/")` for the one-rune separator `/`. -/
def splitOnSlash : List Char → List (List Char)
  | [] => [[]]
  | c :: cs =>
    if c = '/' then [] :: splitOnSlash cs
    else
      match splitOnSlash cs with
      | [] => [[c]]
      | p :: ps => (c :: p) :: ps

/-- `strings.Join(parts, "/")`. -/
def joinSlash : List (List Char) → List Char
  | [] => []
  | p :: ps =>
    match ps with
    | [] => p
    | _ :: _ => p ++ '/' :: joinSlash ps

/-- `strings.HasSuffix(p, "\"")` on a list of runes. -/
def hasQuoteSuffix (p : List Char) : Bool :=
  match p.getLast? with
  | some c => decide (c = '"')
  | none => false

/-- The loop of `removeMajorVersionFromPath`: walk the parts in order,
keep the parts not accepted by `isVNPart` (accumulated in reverse), and
(re)assign `endQuote` at every accepted part to "this part is the last one
and ends with a quote". -/
def stripGo (acc : List (List Char)) (endQuote : Bool) :
    List (List Char) → List (List Char) × Bool
  | [] => (acc.reverse, endQuote)
  | p :: rest =>
    if isVNPartL p then
      stripGo acc (rest.isEmpty && hasQuoteSuffix p) rest
    else
      stripGo (p :: acc) endQuote rest

/-- Model of the Go function `removeMajorVersionFromPath` on a list of
runes, returning the rejoined result (with the closing quote re-appended
when the dropped part was the final one and ended with `"`). -/
def removeMajorVersionFromPathL (pkgPath : List Char) : List Char :=
  let parts := splitOnSlash pkgPath
  let looped := stripGo [] false parts
  let r := joinSlash looped.1
  if looped.2 then r ++ ['"'] else r

/-- The Go function `removeMajorVersionFromPath`: result string plus
`len(pkgPath) - len(r)` (an `int` in Go, hence `Int` here). -/
def removeMajorVersionFromPath (pkgPath : String) : String × Int :=
  let r := removeMajorVersionFromPathL pkgPath.data
  (⟨r⟩, (pkgPath.length : Int) - (r.length : Int))

/-! ### The resolver `(*mmcImporter).Import` -/

/-- Opaque package descriptor (`*types.Package`); a `none` models a nil
pointer. -/
structure Pkg where
  id : Nat
deriving DecidableEq

/-- Opaque Go `error` value; a `none` models a nil error. -/
structure Err where
  id : Nat
deriving DecidableEq

/-- A parsed source file (`*ast.File`), abstracted to the data the resolver
touches: the list of import path literals (`imp.Path.Value`, quotes
included). -/
structure Ast where
  imports : List String
deriving DecidableEq

/-- The external collaborators of `Import`, supplied as an environment:
the lazily created standard importer (`importer.ForCompiler`, identified by
a handle), `build.Context.Import`, `ioutil.ReadFile`, `parser.ParseFile`
and `types.Config.Check`.  Each returns exactly the shape the Go API has;
in particular `check` returns a `(*types.Package, error)` pair with no
constraint relating its components. -/
structure Env where
  gopath : String
  freshStd : Nat
  stdBehavior : Nat → String → Option Pkg × Option Err
  ctxImport : String → String → Except Err (List String)
  readFile : String → Except Err (List Char)
  parseFile : String → List Char → Except Err Ast
  check : String → List Ast → Option Pkg × Option Err

/-- The mutable receiver state of an `mmcImporter` value: its `stdImporter`
field (`none` models the nil interface value). -/
structure ImpState where
  stdImporter : Option Nat
deriving DecidableEq

/-- Ghost instrumentation: how many times each fallback collaborator was
invoked during one `Import` call. -/
structure CallLog where
  loadCalls : Nat
  parseCalls : Nat
  checkCalls : Nat
deriving DecidableEq

/-- The handle held in `stdImporter` after the lazy-initialization guard at
the top of `Import`: the existing one if the field was non-nil, a freshly
created one otherwise. -/
def handleAfterInit (env : Env) (st : ImpState) : Nat :=
  match st.stdImporter with
  | some h => h
  | none => env.freshStd

/-- The receiver state after the lazy-initialization guard. -/
def initStd (env : Env) (st : ImpState) : ImpState :=
  ⟨some (handleAfterInit env st)⟩

/-- The Go function `loadFileContents`: read every path, failing on the
first unreadable file, otherwise produce the path-to-content map (as an
association list). -/
def loadFileContents (env : Env) : List String → Except Err (List (String × List Char))
  | [] => .ok []
  | fp :: rest =>
    match env.readFile fp with
    | .error e => .error e
    | .ok d =>
      match loadFileContents env rest with
      | .error e => .error e
      | .ok m => .ok ((fp, d) :: m)

/-- The Go function `loadPackageSources`: list the package's Go files via
the build context, then read them from the source directory. -/
def loadPackageSources (env : Env) (packagePath srcDir : String) :
    Except Err (List (String × List Char)) :=
  match env.ctxImport packagePath srcDir with
  | .error e => .error e
  | .ok goFiles => loadFileContents env (goFiles.map fun f => srcDir ++ "/" ++ f)

/-- The in-place rewrite performed on each parsed file: every import path
literal is replaced by its version-stripped form
(`imp.Path.Value = r` where `r, _ = removeMajorVersionFromPath(...)`). -/
def rewriteImports (a : Ast) : Ast :=
  ⟨a.imports.map fun ip => (removeMajorVersionFromPath ip).1⟩

/-- The parse loop of `Import`: parse each loaded file, aborting on the
first parse error, rewriting the imports of each parsed file.  The second
component counts the parser invocations. -/
def parseAndRewrite (env : Env) :
    List (String × List Char) → Except Err (List Ast) × Nat
  | [] => (.ok [], 0)
  | (fp, src) :: rest =>
    match env.parseFile fp src with
    | .error e => (.error e, 1)
    | .ok a =>
      match parseAndRewrite env rest with
      | (.error e, n) => (.error e, n + 1)
      | (.ok asts, n) => (.ok (rewriteImports a :: asts), n + 1)

/-- Model of the method `(*mmcImporter).Import`:

1. lazily initialize `stdImporter` if it is nil;
2. try the standard importer; if its error is nil, return its pair as-is;
3. otherwise load the package sources from `GOPATH/src/<path>` (nil result
   and the error on failure);
4. parse each file, rewriting import literals via
   `removeMajorVersionFromPath` (nil result and the error on the first
   parse failure);
5. return the result pair of `types.Config.Check` verbatim.

Returns the `(pkg, err)` pair, the receiver state after the call, and the
ghost call log. -/
def Import (env : Env) (st : ImpState) (path : String) :
    (Option Pkg × Option Err) × ImpState × CallLog :=
  let st1 := initStd env st
  let std := env.stdBehavior (handleAfterInit env st) path
  if std.2 = none then (std, st1, ⟨0, 0, 0⟩)
  else
    let pkgSrcPath := env.gopath ++ "/src/" ++ path
    match loadPackageSources env path pkgSrcPath with
    | .error e => ((none, some e), st1, ⟨1, 0, 0⟩)
    | .ok fileSrcs =>
      match parseAndRewrite env fileSrcs with
      | (.error e, n) => ((none, some e), st1, ⟨1, n, 0⟩)
      | (.ok astFiles, n) => (env.check path astFiles, st1, ⟨1, n, 1⟩)

/-! ### Spec-side definitions (the claims' own words)

These definitions are NOT translations of the Go code; they render the
textual patterns used by the specification, to be compared with the
code-derived definitions above. -/

/-- The specification's version-segment pattern, verbatim: after optionally
stripping one trailing quote character, the remaining text is exactly `v`
followed by one or more decimal digits and nothing else. -/
def specIsVNPartL (s : List Char) : Bool :=
  let core := if s.getLast? = some '"' then s.dropLast else s
  match core with
  | 'v' :: ds => !ds.isEmpty && ds.all isDecDigit
  | _ => false

/-- `specIsVNPartL` on a `String`. -/
def specIsVNPart (s : String) : Bool :=
  specIsVNPartL s.data

/-- Whether the final `/`-delimited token of the path is accepted by the
version-segment predicate and ends with a quote — the condition under
which, per the claim, the closing quote is re-appended. -/
def endQuoteSpec (parts : List (List Char)) : Bool :=
  match parts.getLast? with
  | some p => isVNPartL p && hasQuoteSuffix p
  | none => false

/-- The claim's description of `Strip`'s result string: drop every segment
the version-segment predicate accepts, rejoin the kept segments with `/`,
and append a trailing quote exactly when the last token was accepted and
ended with a quote. -/
def stripSpecString (path : String) : String :=
  let parts := splitOnSlash path.data
  let kept := parts.filter fun p => !isVNPartL p
  let base := joinSlash kept
  ⟨if endQuoteSpec parts then base ++ ['"'] else base⟩

/-! ### Lemmas: splitting and joining on `/` -/

theorem splitOnSlash_nil : splitOnSlash [] = [[]] := rfl

theorem splitOnSlash_cons (c : Char) (cs : List Char) :
    splitOnSlash (c :: cs) =
      (if c = '/' then [] :: splitOnSlash cs
       else
        match splitOnSlash cs with
        | [] => [[c]]
        | p :: ps => (c :: p) :: ps) := rfl

theorem splitOnSlash_ne_nil (l : List Char) : splitOnSlash l ≠ [] := by
  induction l with
  | nil => simp [splitOnSlash_nil]
  | cons c cs ih =>
    rw [splitOnSlash_cons]
    by_cases h : c = '/'
    · simp [h]
    · simp only [h, if_false]
      cases hs : splitOnSlash cs <;> simp

theorem joinSlash_cons_ne_nil (p : List Char) {ps : List (List Char)}
    (h : ps ≠ []) : joinSlash (p :: ps) = p ++ '/' :: joinSlash ps := by
  cases ps with
  | nil => exact absurd rfl h
  | cons q qs => rfl

theorem joinSlash_splitOnSlash (l : List Char) :
    joinSlash (splitOnSlash l) = l := by
  induction l with
  | nil => rfl
  | cons c cs ih =>
    rw [splitOnSlash_cons]
    by_cases h : c = '/'
    · subst h
      rw [if_pos rfl, joinSlash_cons_ne_nil _ (splitOnSlash_ne_nil cs), ih]
      rfl
    · rw [if_neg h]
      rcases hs : splitOnSlash cs with _ | ⟨p, ps⟩
      · exact absurd hs (splitOnSlash_ne_nil cs)
      · rw [hs] at ih
        cases ps with
        | nil => simpa [joinSlash] using ih
        | cons q qs =>
          rw [joinSlash_cons_ne_nil p (by simp)] at ih
          rw [joinSlash_cons_ne_nil (c :: p) (by simp), ← ih]
          rfl

theorem not_slash_of_mem_splitOnSlash {l p : List Char}
    (hp : p ∈ splitOnSlash l) : '/' ∉ p := by
  induction l generalizing p with
  | nil =>
    rw [splitOnSlash_nil, List.mem_singleton] at hp
    subst hp
    simp
  | cons c cs ih =>
    rw [splitOnSlash_cons] at hp
    by_cases h : c = '/'
    · rw [if_pos h, List.mem_cons] at hp
      rcases hp with hp | hp
      · subst hp
        simp
      · exact ih hp
    · rw [if_neg h] at hp
      rcases hs : splitOnSlash cs with _ | ⟨q, qs⟩
      · exact absurd hs (splitOnSlash_ne_nil cs)
      · rw [hs] at hp
        have hq : q ∈ splitOnSlash cs := by
          rw [hs]
          exact List.mem_cons_self q qs
        rcases List.mem_cons.mp hp with hp1 | hp2
        · subst hp1
          intro hmem
          rcases List.mem_cons.mp hmem with heq | hmem2
          · exact h heq.symm
          · exact ih hq hmem2
        · have hq2 : p ∈ splitOnSlash cs := by
            rw [hs]
            exact List.mem_cons_of_mem q hp2
          exact ih hq2

theorem splitOnSlash_no_slash {p : List Char} (h : '/' ∉ p) :
    splitOnSlash p = [p] := by
  induction p with
  | nil => rfl
  | cons c cs ih =>
    have hc : c ≠ '/' := fun hc => h (hc ▸ List.mem_cons_self c cs)
    have hcs : '/' ∉ cs := fun hm => h (List.mem_cons_of_mem c hm)
    rw [splitOnSlash_cons, if_neg hc, ih hcs]

theorem splitOnSlash_append_slash {p : List Char} (t : List Char)
    (h : '/' ∉ p) : splitOnSlash (p ++ '/' :: t) = p :: splitOnSlash t := by
  induction p with
  | nil =>
    rw [List.nil_append, splitOnSlash_cons, if_pos rfl]
  | cons c cs ih =>
    have hc : c ≠ '/' := fun hc => h (hc ▸ List.mem_cons_self c cs)
    have hcs : '/' ∉ cs := fun hm => h (List.mem_cons_of_mem c hm)
    rw [List.cons_append, splitOnSlash_cons, if_neg hc, ih hcs]

theorem splitOnSlash_joinSlash {L : List (List Char)}
    (hL : ∀ p ∈ L, '/' ∉ p) (hne : L ≠ []) :
    splitOnSlash (joinSlash L) = L := by
  induction L with
  | nil => exact absurd rfl hne
  | cons p ps ih =>
    cases ps with
    | nil => exact splitOnSlash_no_slash (hL p (List.mem_cons_self p []))
    | cons q qs =>
      have hp : '/' ∉ p := hL p (List.mem_cons_self p (q :: qs))
      rw [joinSlash_cons_ne_nil p (by simp), splitOnSlash_append_slash _ hp,
        ih (fun r hr => hL r (List.mem_cons_of_mem p hr)) (by simp)]

theorem joinSlash_concat_append (K : List (List Char)) (k q : List Char) :
    joinSlash (K ++ [k]) ++ q = joinSlash (K ++ [k ++ q]) := by
  induction K with
  | nil => rfl
  | cons p ps ih =>
    rw [List.cons_append, List.cons_append,
      joinSlash_cons_ne_nil p (by simp), joinSlash_cons_ne_nil p (by simp),
      List.append_assoc, List.cons_append, ih]

/-! ### Lemmas: the strip loop -/

theorem stripGo_nil (acc : List (List Char)) (eq : Bool) :
    stripGo acc eq [] = (acc.reverse, eq) := rfl

theorem stripGo_cons (acc : List (List Char)) (eq : Bool) (p : List Char)
    (rest : List (List Char)) :
    stripGo acc eq (p :: rest) =
      (if isVNPartL p then stripGo acc (rest.isEmpty && hasQuoteSuffix p) rest
       else stripGo (p :: acc) eq rest) := rfl

theorem stripGo_eq (l : List (List Char)) (acc : List (List Char)) :
    stripGo acc false l =
      (acc.reverse ++ l.filter (fun p => !isVNPartL p), endQuoteSpec l) := by
  induction l generalizing acc with
  | nil => simp [stripGo_nil, endQuoteSpec]
  | cons p rest ih =>
    rw [stripGo_cons]
    by_cases hv : isVNPartL p
    · rw [if_pos hv]
      cases rest with
      | nil =>
        rw [stripGo_nil]
        simp [endQuoteSpec, hv, List.filter_cons]
      | cons x xs =>
        rw [show ((x :: xs).isEmpty && hasQuoteSuffix p) = false by simp,
          ih acc]
        simp [endQuoteSpec, List.getLast?_cons_cons, List.filter_cons, hv]
    · rw [if_neg hv]
      cases rest with
      | nil =>
        rw [stripGo_nil]
        simp [endQuoteSpec, hv, List.filter_cons]
      | cons x xs =>
        rw [ih (p :: acc)]
        simp [endQuoteSpec, List.getLast?_cons_cons, List.filter_cons, hv]

/-- Closed form of `removeMajorVersionFromPathL`: filter out the accepted
parts, rejoin, and append the quote exactly under `endQuoteSpec`. -/
theorem removeL_eq (l : List Char) :
    removeMajorVersionFromPathL l =
      (if endQuoteSpec (splitOnSlash l) then
        joinSlash ((splitOnSlash l).filter (fun p => !isVNPartL p)) ++ ['"']
      else
        joinSlash ((splitOnSlash l).filter (fun p => !isVNPartL p))) := by
  simp only [removeMajorVersionFromPathL]
  rw [stripGo_eq]
  simp

/-! ### Lemmas: appending a quote does not change the scanner's verdict -/

theorem skipSpace_nil : skipSpace [] = some [] := rfl

theorem skipSpace_cons (c : Char) (cs : List Char) :
    skipSpace (c :: cs) =
      (if c = '\n' then none
       else if goIsSpace c then skipSpace cs
       else some (c :: cs)) := rfl

theorem skipSpace_append_single {c : Char} (hc : goIsSpace c = false)
    (l : List Char) :
    skipSpace (l ++ [c]) = (skipSpace l).map (· ++ [c]) := by
  have hnl : c ≠ '\n' := by
    intro h
    rw [h] at hc
    exact absurd hc (by decide)
  induction l with
  | nil =>
    rw [List.nil_append, skipSpace_cons, if_neg hnl, hc]
    rfl
  | cons d ds ih =>
    rw [List.cons_append, skipSpace_cons, skipSpace_cons]
    by_cases hd : d = '\n'
    · rw [if_pos hd, if_pos hd]
      rfl
    · rw [if_neg hd, if_neg hd]
      by_cases hsp : goIsSpace d
      · rw [if_pos hsp, if_pos hsp, ih]
      · rw [if_neg hsp, if_neg hsp]
        rfl

theorem takeWhile_append_single {p : Char → Bool} {c : Char}
    (hc : p c = false) (l : List Char) :
    (l ++ [c]).takeWhile p = l.takeWhile p := by
  induction l with
  | nil => simp [List.takeWhile_cons, hc]
  | cons x xs ih =>
    rw [List.cons_append, List.takeWhile_cons, List.takeWhile_cons]
    by_cases hx : p x
    · rw [if_pos hx, if_pos hx, ih]
    · rw [if_neg hx, if_neg hx]

theorem scanSign_append_single {x : Char} (hx1 : x ≠ '+') (hx2 : x ≠ '-')
    (r : List Char) :
    scanSign (r ++ [x]) = ((scanSign r).1, (scanSign r).2 ++ [x]) := by
  cases r with
  | nil => simp [scanSign, hx1, hx2]
  | cons c t =>
    by_cases h1 : c = '+' <;> by_cases h2 : c = '-' <;>
      simp [scanSign, h1, h2]

theorem scanVNTail_append_quote (r : List Char) :
    scanVNTail (r ++ ['"']) = scanVNTail r := by
  simp only [scanVNTail,
    scanSign_append_single (by decide : ('"' : Char) ≠ '+')
      (by decide : ('"' : Char) ≠ '-'),
    takeWhile_append_single (by decide : isDecDigit '"' = false)]

theorem isVNPartL_append_quote (l : List Char) :
    isVNPartL (l ++ ['"']) = isVNPartL l := by
  cases l with
  | nil => rfl
  | cons c rest =>
    simp only [List.cons_append, isVNPartL]
    by_cases hv : c = 'v'
    · rw [if_pos hv, if_pos hv,
        skipSpace_append_single (by decide : goIsSpace '"' = false)]
      cases hs : skipSpace rest with
      | none => rfl
      | some r1 =>
        simp only [Option.map_some]
        exact scanVNTail_append_quote r1
    · rw [if_neg hv, if_neg hv]

/-! ### Lemmas: paths without accepted segments are left unchanged -/

theorem removeL_id {l : List Char}
    (h : ∀ p ∈ splitOnSlash l, isVNPartL p = false) :
    removeMajorVersionFromPathL l = l := by
  rw [removeL_eq]
  have hfilter :
      (splitOnSlash l).filter (fun p => !isVNPartL p) = splitOnSlash l :=
    List.filter_eq_self.mpr fun p hp => by rw [h p hp]; rfl
  have hq : endQuoteSpec (splitOnSlash l) = false := by
    unfold endQuoteSpec
    rcases hlast : (splitOnSlash l).getLast? with _ | p
    · rfl
    · have hp := h p (List.mem_of_getLast?_eq_some hlast)
      simp [hp]
  rw [hfilter, hq, if_neg (by simp), joinSlash_splitOnSlash]

/-! ### Lemmas: the strip result contains no accepted segment -/

theorem removeL_result_no_vn (l : List Char) :
    ∀ p ∈ splitOnSlash (removeMajorVersionFromPathL l), isVNPartL p = false := by
  rw [removeL_eq]
  have hkeptVN :
      ∀ p ∈ (splitOnSlash l).filter (fun p => !isVNPartL p),
        isVNPartL p = false := by
    intro p hp
    have := (List.mem_filter.mp hp).2
    simpa using this
  have hkeptSF :
      ∀ p ∈ (splitOnSlash l).filter (fun p => !isVNPartL p), '/' ∉ p :=
    fun p hp => not_slash_of_mem_splitOnSlash (List.mem_filter.mp hp).1
  cases hq : endQuoteSpec (splitOnSlash l) with
  | false =>
    rw [if_neg (by simp)]
    by_cases hk : (splitOnSlash l).filter (fun p => !isVNPartL p) = []
    · rw [hk]
      intro p hp
      simp only [joinSlash, splitOnSlash_nil, List.mem_singleton] at hp
      subst hp
      rfl
    · intro p hp
      rw [splitOnSlash_joinSlash hkeptSF hk] at hp
      exact hkeptVN p hp
  | true =>
    rw [if_pos (by simp)]
    rcases ((splitOnSlash l).filter (fun p => !isVNPartL p)).eq_nil_or_concat'
      with hnil | ⟨K, k, hcat⟩
    · rw [hnil]
      intro p hp
      simp only [joinSlash, List.nil_append] at hp
      rw [splitOnSlash_no_slash (by simp : '/' ∉ ['"'])] at hp
      rw [List.mem_singleton] at hp
      subst hp
      decide
    · rw [hcat, joinSlash_concat_append]
      have hKmem : ∀ p ∈ K ++ [k],
          p ∈ (splitOnSlash l).filter (fun p => !isVNPartL p) := by
        rw [hcat]
        exact fun p hp => hp
      intro p hp
      rw [splitOnSlash_joinSlash
        (by
          intro p2 hp2
          rcases List.mem_append.mp hp2 with h2 | h2
          · exact hkeptSF p2 (hKmem p2 (List.mem_append_left _ h2))
          · rw [List.mem_singleton] at h2
            subst h2
            intro hmem
            rcases List.mem_append.mp hmem with h3 | h3
            · exact hkeptSF k (hKmem k (List.mem_append_right _ (by simp))) h3
            · simp at h3)
        (by simp)] at hp
      rcases List.mem_append.mp hp with h2 | h2
      · exact hkeptVN p (hKmem p (List.mem_append_left _ h2))
      · rw [List.mem_singleton] at h2
        subst h2
        rw [isVNPartL_append_quote]
        exact hkeptVN k (hKmem k (List.mem_append_right _ (by simp)))

theorem removeL_idem (l : List Char) :
    removeMajorVersionFromPathL (removeMajorVersionFromPathL l) =
      removeMajorVersionFromPathL l :=
  removeL_id (removeL_result_no_vn l)

/-! ### Lemmas: paths consisting only of accepted segments -/

theorem removeL_all_vn {l : List Char}
    (h : ∀ p ∈ splitOnSlash l, isVNPartL p = true) :
    removeMajorVersionFromPathL l =
      (if endQuoteSpec (splitOnSlash l) then ['"'] else []) := by
  rw [removeL_eq]
  have hfilter : (splitOnSlash l).filter (fun p => !isVNPartL p) = [] :=
    List.filter_eq_nil_iff.mpr fun p hp => by simp [h p hp]
  rw [hfilter]
  cases hq : endQuoteSpec (splitOnSlash l) <;> simp [joinSlash]

/-! ### Characterization of the scanner's acceptance -/

theorem digit_not_space {c : Char} (h : isDecDigit c = true) :
    goIsSpace c = false := by
  simp only [isDecDigit, Bool.and_eq_true, decide_eq_true_eq] at h
  simp only [goIsSpace, Bool.or_eq_false_iff, Bool.and_eq_false_iff,
    decide_eq_false_iff_not]
  omega

theorem digit_ne_plus {c : Char} (h : isDecDigit c = true) : c ≠ '+' := by
  intro hc
  rw [hc] at h
  exact absurd h (by decide)

theorem digit_ne_minus {c : Char} (h : isDecDigit c = true) : c ≠ '-' := by
  intro hc
  rw [hc] at h
  exact absurd h (by decide)

theorem skipSpace_eq_some {t r : List Char} (h : skipSpace t = some r) :
    ∃ sp, t = sp ++ r ∧ ∀ c ∈ sp, goIsSpace c = true ∧ c ≠ '\n' := by
  induction t generalizing r with
  | nil =>
    rw [skipSpace_nil, Option.some_inj] at h
    exact ⟨[], by simp [h], by simp⟩
  | cons c cs ih =>
    rw [skipSpace_cons] at h
    by_cases hnl : c = '\n'
    · rw [if_pos hnl] at h
      exact absurd h (by simp)
    · rw [if_neg hnl] at h
      by_cases hsp : goIsSpace c
      · rw [if_pos hsp] at h
        obtain ⟨sp, hsp1, hsp2⟩ := ih h
        refine ⟨c :: sp, by simp [hsp1], ?_⟩
        intro d hd
        rcases List.mem_cons.mp hd with rfl | hd
        · exact ⟨hsp, hnl⟩
        · exact hsp2 d hd
      · rw [if_neg hsp, Option.some_inj] at h
        exact ⟨[], by simp [h], by simp⟩

theorem skipSpace_spaces_append {sp : List Char}
    (hsp : ∀ c ∈ sp, goIsSpace c = true ∧ c ≠ '\n') (r : List Char)
    (hr : ∀ c, r.head? = some c → goIsSpace c = false) :
    skipSpace (sp ++ r) = some r := by
  induction sp with
  | nil =>
    rw [List.nil_append]
    cases r with
    | nil => rfl
    | cons c cs =>
      have hc := hr c rfl
      have hnl : c ≠ '\n' := by
        intro hnl
        rw [hnl] at hc
        exact absurd hc (by decide)
      rw [skipSpace_cons, if_neg hnl, hc]
      rfl
  | cons c sp2 ih =>
    have hc := hsp c (List.mem_cons_self c sp2)
    rw [List.cons_append, skipSpace_cons, if_neg hc.2, if_pos hc.1]
    exact ih fun d hd => hsp d (List.mem_cons_of_mem c hd)

theorem takeWhile_append_all {p : Char → Bool} {ds rest : List Char}
    (hds : ∀ c ∈ ds, p c = true)
    (hrest : ∀ c, rest.head? = some c → p c = false) :
    (ds ++ rest).takeWhile p = ds := by
  induction ds with
  | nil =>
    rw [List.nil_append]
    cases rest with
    | nil => rfl
    | cons c cs => rw [List.takeWhile_cons, hrest c rfl]; rfl
  | cons d ds2 ih =>
    rw [List.cons_append, List.takeWhile_cons,
      hds d (List.mem_cons_self d ds2)]
    simp only [if_true]
    rw [ih fun c hc => hds c (List.mem_cons_of_mem d hc)]

theorem head?_dropWhile_eq_some {p : Char → Bool} {l : List Char} {c : Char}
    (h : (l.dropWhile p).head? = some c) : p c = false := by
  have hx := List.head?_dropWhile_not p l
  rw [h] at hx
  exact hx

/-- The shape of the rune lists accepted by the scanner underlying
`isVNPart`: a leading `v`, then non-newline space runes, then an optional
sign, then one or more decimal digits whose value fits a signed 64-bit
integer, then arbitrary unread input that does not begin with a digit. -/
def VNShape (l : List Char) : Prop :=
  ∃ sp sg ds rest : List Char,
    l = 'v' :: (sp ++ sg ++ (ds ++ rest)) ∧
    (∀ c ∈ sp, goIsSpace c = true ∧ c ≠ '\n') ∧
    (sg = [] ∨ sg = ['+'] ∨ sg = ['-']) ∧
    ds ≠ [] ∧
    (∀ c ∈ ds, isDecDigit c = true) ∧
    (∀ c, rest.head? = some c → isDecDigit c = false) ∧
    natOfDigits ds ≤ (if sg = ['-'] then 2 ^ 63 else 2 ^ 63 - 1)

theorem scanVNTail_shape {r1 : List Char} (h : scanVNTail r1 = true) :
    ∃ sg ds rest : List Char,
      r1 = sg ++ (ds ++ rest) ∧
      (sg = [] ∨ sg = ['+'] ∨ sg = ['-']) ∧
      ds ≠ [] ∧
      (∀ c ∈ ds, isDecDigit c = true) ∧
      (∀ c, rest.head? = some c → isDecDigit c = false) ∧
      natOfDigits ds ≤ (if sg = ['-'] then 2 ^ 63 else 2 ^ 63 - 1) := by
  cases r1 with
  | nil => exact absurd h (by decide)
  | cons c t =>
    by_cases h1 : c = '+'
    · subst h1
      have hs : scanSign ('+' :: t) = (false, t) := rfl
      rw [scanVNTail, hs] at h
      simp only at h
      refine ⟨['+'], t.takeWhile isDecDigit, t.dropWhile isDecDigit,
        by simp [List.takeWhile_append_dropWhile], by simp, ?_, ?_, ?_, ?_⟩
      · intro hnil
        rw [hnil] at h
        simp at h
      · exact fun c hc => List.mem_takeWhile_imp hc
      · exact fun c hc => head?_dropWhile_eq_some hc
      · rw [if_neg (by simp)]
        by_cases hemp : (t.takeWhile isDecDigit).isEmpty
        · rw [if_pos hemp] at h
          exact absurd h (by simp)
        · rw [if_neg hemp] at h
          simpa using h
    · by_cases h2 : c = '-'
      · subst h2
        have hs : scanSign ('-' :: t) = (true, t) := rfl
        rw [scanVNTail, hs] at h
        simp only at h
        refine ⟨['-'], t.takeWhile isDecDigit, t.dropWhile isDecDigit,
          by simp [List.takeWhile_append_dropWhile], by simp, ?_, ?_, ?_, ?_⟩
        · intro hnil
          rw [hnil] at h
          simp at h
        · exact fun c hc => List.mem_takeWhile_imp hc
        · exact fun c hc => head?_dropWhile_eq_some hc
        · rw [if_pos rfl]
          by_cases hemp : (t.takeWhile isDecDigit).isEmpty
          · rw [if_pos hemp] at h
            exact absurd h (by simp)
          · rw [if_neg hemp] at h
            simpa using h
      · have hs : scanSign (c :: t) = (false, c :: t) := by
          simp [scanSign, h1, h2]
        rw [scanVNTail, hs] at h
        simp only at h
        refine ⟨[], (c :: t).takeWhile isDecDigit, (c :: t).dropWhile isDecDigit,
          by simp [List.takeWhile_append_dropWhile], by simp, ?_, ?_, ?_, ?_⟩
        · intro hnil
          rw [hnil] at h
          simp at h
        · exact fun d hd => List.mem_takeWhile_imp hd
        · exact fun d hd => head?_dropWhile_eq_some hd
        · rw [if_neg (by simp)]
          by_cases hemp : ((c :: t).takeWhile isDecDigit).isEmpty
          · rw [if_pos hemp] at h
            exact absurd h (by simp)
          · rw [if_neg hemp] at h
            simpa using h

theorem scanVNTail_of_shape {sg ds rest : List Char}
    (hsg : sg = [] ∨ sg = ['+'] ∨ sg = ['-'])
    (hne : ds ≠ [])
    (hds : ∀ c ∈ ds, isDecDigit c = true)
    (hrest : ∀ c, rest.head? = some c → isDecDigit c = false)
    (hval : natOfDigits ds ≤ (if sg = ['-'] then 2 ^ 63 else 2 ^ 63 - 1)) :
    scanVNTail (sg ++ (ds ++ rest)) = true := by
  have htw : (ds ++ rest).takeWhile isDecDigit = ds :=
    takeWhile_append_all hds hrest
  have hemp : ds.isEmpty = false := by
    cases ds with
    | nil => exact absurd rfl hne
    | cons d ds2 => rfl
  rcases hsg with rfl | rfl | rfl
  · cases ds with
    | nil => exact absurd rfl hne
    | cons d ds2 =>
      have hd := hds d (List.mem_cons_self d ds2)
      have hs : scanSign (((d :: ds2) ++ rest)) = (false, (d :: ds2) ++ rest) := by
        simp [scanSign, digit_ne_plus hd, digit_ne_minus hd]
      rw [List.nil_append, scanVNTail, hs]
      simp only
      rw [htw, if_neg (by simp [hemp] : ¬(d :: ds2).isEmpty = true)]
      rw [if_neg (by simp)] at hval
      simpa using hval
  · show scanVNTail ('+' :: (ds ++ rest)) = true
    have hs : scanSign ('+' :: (ds ++ rest)) = (false, ds ++ rest) := rfl
    rw [if_neg (by decide : ¬(['+'] : List Char) = ['-'])] at hval
    simp only [scanVNTail, hs, htw, hemp]
    simpa using hval
  · show scanVNTail ('-' :: (ds ++ rest)) = true
    have hs : scanSign ('-' :: (ds ++ rest)) = (true, ds ++ rest) := rfl
    rw [if_pos rfl] at hval
    simp only [scanVNTail, hs, htw, hemp]
    simpa using hval

theorem isVNPartL_iff_shape (l : List Char) :
    isVNPartL l = true ↔ VNShape l := by
  constructor
  · intro h
    cases l with
    | nil => exact absurd h (by decide)
    | cons c rest0 =>
      simp only [isVNPartL] at h
      by_cases hv : c = 'v'
      · rw [if_pos hv] at h
        subst hv
        cases hs : skipSpace rest0 with
        | none =>
          rw [hs] at h
          exact absurd h (by simp)
        | some r1 =>
          rw [hs] at h
          obtain ⟨sp, hsp1, hsp2⟩ := skipSpace_eq_some hs
          obtain ⟨sg, ds, rest, hr1, hsg, hne, hds, hrest, hval⟩ :=
            scanVNTail_shape h
          refine ⟨sp, sg, ds, rest, ?_, hsp2, hsg, hne, hds, hrest, hval⟩
          rw [hsp1, hr1, List.append_assoc]
      · rw [if_neg hv] at h
        exact absurd h (by simp)
  · rintro ⟨sp, sg, ds, rest, rfl, hsp, hsg, hne, hds, hrest, hval⟩
    simp only [isVNPartL, if_pos rfl]
    have hre : ∀ c, (sg ++ (ds ++ rest)).head? = some c → goIsSpace c = false := by
      intro c hc
      rcases hsg with rfl | rfl | rfl
      · rw [List.nil_append] at hc
        cases ds with
        | nil => exact absurd rfl hne
        | cons d ds2 =>
          rw [List.cons_append] at hc
          have hcd : d = c := by simpa using hc
          subst hcd
          exact digit_not_space (hds d (List.mem_cons_self d ds2))
      · have hcp : '+' = c := by simpa using hc
        rw [← hcp]
        decide
      · have hcm : '-' = c := by simpa using hc
        rw [← hcm]
        decide
    rw [List.append_assoc, skipSpace_spaces_append hsp _ hre]
    exact scanVNTail_of_shape hsg hne hds hrest hval

end MmcImporter
namespace MmcImporter

/-! ### Lemmas: the resolver -/

theorem import_state_eq (env : Env) (st : ImpState) (path : String) :
    (Import env st path).2.1 = initStd env st := by
  simp only [Import]
  split
  · rfl
  · split
    · rfl
    · split
      · rfl
      · rfl

theorem import_baseline_short (env : Env) (st : ImpState) (path : String)
    (h : (env.stdBehavior (handleAfterInit env st) path).2 = none) :
    (Import env st path).1 = env.stdBehavior (handleAfterInit env st) path ∧
      (Import env st path).2.2 = CallLog.mk 0 0 0 := by
  have heq : Import env st path =
      (env.stdBehavior (handleAfterInit env st) path, initStd env st,
        CallLog.mk 0 0 0) := by
    simp only [Import, if_pos h]
  rw [heq]
  exact ⟨rfl, rfl⟩

theorem import_both_some_from_check (env : Env) (st : ImpState) (path : String)
    (h1 : ((Import env st path).1).1.isSome = true)
    (h2 : ((Import env st path).1).2.isSome = true) :
    ∃ asts : List Ast, (Import env st path).1 = env.check path asts := by
  by_cases hstd : (env.stdBehavior (handleAfterInit env st) path).2 = none
  · simp only [Import, if_pos hstd] at h2
    rw [hstd] at h2
    exact absurd h2 (by simp)
  · rcases hL : loadPackageSources env path (env.gopath ++ "/src/" ++ path)
      with e | fileSrcs
    · have heq : Import env st path =
          ((none, some e), initStd env st, ⟨1, 0, 0⟩) := by
        simp only [Import, if_neg hstd, hL]
      rw [heq] at h1
      simp at h1
    · rcases hP : parseAndRewrite env fileSrcs with ⟨res, n⟩
      rcases res with e | asts
      · have heq : Import env st path =
            ((none, some e), initStd env st, ⟨1, n, 0⟩) := by
          simp only [Import, if_neg hstd, hL, hP]
        rw [heq] at h1
        simp at h1
      · have heq : Import env st path =
            (env.check path asts, initStd env st, ⟨1, n, 1⟩) := by
          simp only [Import, if_neg hstd, hL, hP]
        exact ⟨asts, by rw [heq]⟩

/-! ### Concrete environments used to exhibit behaviors -/

/-- A package value used by the concrete environments. -/
def pkgA : Pkg := ⟨0⟩

/-- An error value used by the concrete environments. -/
def errA : Err := ⟨0⟩

/-- A second error value used by the concrete environments. -/
def errB : Err := ⟨1⟩

/-- An environment in which the baseline importer fails, loading and
parsing succeed, and the checker returns a (partial) package together with
an error — the behavior Go's `types.Config.Check` actually has on a
semantic error, where it returns the incompletely checked package alongside
the first error. -/
def envCheckPartial : Env where
  gopath := "gp"
  freshStd := 7
  stdBehavior := fun _ _ => (none, some errA)
  ctxImport := fun _ _ => .ok ["a.go"]
  readFile := fun _ => .ok []
  parseFile := fun _ _ => .ok ⟨[]⟩
  check := fun _ _ => (some pkgA, some errB)

/-- An environment in which the baseline importer succeeds. -/
def envBaselineOk : Env where
  gopath := "gp"
  freshStd := 7
  stdBehavior := fun _ _ => (some pkgA, none)
  ctxImport := fun _ _ => .ok []
  readFile := fun _ => .ok []
  parseFile := fun _ _ => .ok ⟨[]⟩
  check := fun _ _ => (none, some errB)

end MmcImporter
namespace MmcImporter

/-! ### Bridging lemmas at the `String` interface -/

theorem strip_fixed_of_id {s : String}
    (h : removeMajorVersionFromPathL s.data = s.data) :
    removeMajorVersionFromPath s = (s, 0) := by
  simp only [removeMajorVersionFromPath, h]
  have h2 : (s.length : Int) - (s.data.length : Int) = 0 := by
    have hl : s.length = s.data.length := rfl
    rw [hl]
    omega
  rw [h2]

/-! ### Claim C1 -/

/-- Claim C1, counterexample: the claim states that a segment containing
`v<digits>` only as a prefix of a longer token (such as `v2mod`) is never
recognized, i.e. that `isVNPart` agrees with the exact-match pattern
`specIsVNPart`; on the segment `v2mod` the code returns `true` while the
claimed pattern returns `false` (the Go scanner leaves input after the
digits unread). -/
theorem claim_c1_counterexample :
    isVNPart "v2mod" = true ∧ specIsVNPart "v2mod" = false := by
  constructor
  · rfl
  · rfl

/-- Claim C1, amended: `isVNPart` returns true iff the segment starts with
`v`, followed by optional non-newline space runes, an optional `+`/`-`
sign, and one or more decimal digits whose value fits in a signed 64-bit
integer; everything after the digits is ignored (so `v2mod` IS recognized,
while a trailing quote is merely part of the unread input rather than
being specially stripped, and `gomobile-v2mod` is not recognized). -/
theorem claim_c1_amended (s : String) : isVNPart s = true ↔ VNShape s.data :=
  isVNPartL_iff_shape s.data

/-! ### Claim C2 -/

/-- Claim C2, counterexample: under the environment `envCheckPartial` — in
which the baseline importer fails and the checker returns a package
together with an error, as Go's `types.Config.Check` does on a semantic
error — `Import` returns a pair whose package AND error are both non-nil,
contradicting the claim that the returned pair is never both non-nil. -/
theorem claim_c2_counterexample :
    ((Import envCheckPartial (ImpState.mk none) "p").1).1.isSome = true ∧
      ((Import envCheckPartial (ImpState.mk none) "p").1).2.isSome = true := by
  constructor
  · rfl
  · rfl

/-- Claim C2, amended: when the baseline importer fails, a failure to load
the package sources returns a nil package with that error, a failure to
parse a file returns a nil package with that error, and when loading and
parsing succeed the check step's result pair is returned verbatim;
consequently (stated without any assumption) a result with both components
non-nil can only be the checker collaborator's own pair, never
manufactured by `Import` itself. -/
theorem claim_c2_amended (env : Env) (st : ImpState) (path : String) :
    ((env.stdBehavior (handleAfterInit env st) path).2 ≠ none →
      (∀ e : Err,
        loadPackageSources env path (env.gopath ++ "/src/" ++ path) = .error e →
        (Import env st path).1 = (none, some e)) ∧
      (∀ (fileSrcs : List (String × List Char)) (e : Err) (n : Nat),
        loadPackageSources env path (env.gopath ++ "/src/" ++ path) = .ok fileSrcs →
        parseAndRewrite env fileSrcs = (.error e, n) →
        (Import env st path).1 = (none, some e)) ∧
      (∀ (fileSrcs : List (String × List Char)) (asts : List Ast) (n : Nat),
        loadPackageSources env path (env.gopath ++ "/src/" ++ path) = .ok fileSrcs →
        parseAndRewrite env fileSrcs = (.ok asts, n) →
        (Import env st path).1 = env.check path asts)) ∧
    (((Import env st path).1).1.isSome = true →
      ((Import env st path).1).2.isSome = true →
      ∃ asts : List Ast, (Import env st path).1 = env.check path asts) := by
  constructor
  · intro hstd
    refine ⟨?_, ?_, ?_⟩
    · intro e hL
      have heq : Import env st path =
          ((none, some e), initStd env st, ⟨1, 0, 0⟩) := by
        simp only [Import, if_neg hstd, hL]
      rw [heq]
    · intro fileSrcs e n hL hP
      have heq : Import env st path =
          ((none, some e), initStd env st, ⟨1, n, 0⟩) := by
        simp only [Import, if_neg hstd, hL, hP]
      rw [heq]
    · intro fileSrcs asts n hL hP
      have heq : Import env st path =
          (env.check path asts, initStd env st, ⟨1, n, 1⟩) := by
        simp only [Import, if_neg hstd, hL, hP]
      rw [heq]
  · exact import_both_some_from_check env st path

/-- Claim C2, witness for the amended theorem at the concrete environment
`envCheckPartial`: the baseline fails, loading yields one file and parsing
succeeds, so the result is the checker's pair verbatim — and, both of its
components being non-nil, the both-non-nil consequence also fires. -/
theorem claim_c2_witness :
    ((envCheckPartial.stdBehavior
        (handleAfterInit envCheckPartial (ImpState.mk none)) "p").2 ≠ none) ∧
      ((Import envCheckPartial (ImpState.mk none) "p").1 =
        envCheckPartial.check "p" [Ast.mk []]) ∧
      (∃ asts : List Ast,
        (Import envCheckPartial (ImpState.mk none) "p").1 =
          envCheckPartial.check "p" asts) :=
  ⟨by decide,
    ((claim_c2_amended envCheckPartial (ImpState.mk none) "p").1 (by decide)).2.2
      [("gp/src/p/a.go", [])] [Ast.mk []] 1 rfl rfl,
    (claim_c2_amended envCheckPartial (ImpState.mk none) "p").2 rfl rfl⟩

/-! ### Claim C3 -/

/-- Claim C3, confirmed: whenever the baseline importer's error is nil,
`Import` returns the baseline pair unchanged and the fallback collaborators
(source loading, parsing, checking) are invoked zero times. -/
theorem claim_c3 (env : Env) (st : ImpState) (path : String)
    (h : (env.stdBehavior (handleAfterInit env st) path).2 = none) :
    (Import env st path).1 = env.stdBehavior (handleAfterInit env st) path ∧
      (Import env st path).2.2 = CallLog.mk 0 0 0 :=
  import_baseline_short env st path h

/-- Claim C3, witness at the concrete environment `envBaselineOk`. -/
theorem claim_c3_witness :
    ((envBaselineOk.stdBehavior
        (handleAfterInit envBaselineOk (ImpState.mk none)) "p").2 = none) ∧
      ((Import envBaselineOk (ImpState.mk none) "p").1 =
          envBaselineOk.stdBehavior
            (handleAfterInit envBaselineOk (ImpState.mk none)) "p" ∧
        (Import envBaselineOk (ImpState.mk none) "p").2.2 = CallLog.mk 0 0 0) :=
  ⟨rfl, claim_c3 envBaselineOk (ImpState.mk none) "p" rfl⟩

end MmcImporter
namespace MmcImporter

/-! ### Claim C4 -/

/-- Claim C4, counterexample: in the path `a/v2mod/b` no `/`-separated
segment matches the claimed pattern `v<digits>` (optionally
quote-terminated), yet `removeMajorVersionFromPath` does not return the
input unchanged with count 0 — it drops `v2mod` (accepted by the actual
scanner) and returns `("a/b", 6)`. -/
theorem claim_c4_counterexample :
    (((splitOnSlash ("a/v2mod/b".data)).all fun p => !specIsVNPartL p) = true) ∧
      removeMajorVersionFromPath "a/v2mod/b" ≠ ("a/v2mod/b", 0) := by
  constructor
  · rfl
  · intro h
    have h2 : (removeMajorVersionFromPath "a/v2mod/b").1 = "a/v2mod/b" :=
      congrArg Prod.fst h
    exact absurd h2 (by decide)

/-- Claim C4, amended: for every path in which no `/`-separated segment is
accepted by the version-segment predicate `isVNPart` itself (rather than
by the textual pattern `v<digits>`), `removeMajorVersionFromPath` returns
the input unchanged with a removed count of 0. -/
theorem claim_c4_amended (path : String)
    (h : ∀ p ∈ splitOnSlash path.data, isVNPartL p = false) :
    removeMajorVersionFromPath path = (path, 0) :=
  strip_fixed_of_id (removeL_id h)

/-- Claim C4, witness for the amended theorem at the path `a/b/c`. -/
theorem claim_c4_witness :
    (∀ p ∈ splitOnSlash ("a/b/c".data), isVNPartL p = false) ∧
      removeMajorVersionFromPath "a/b/c" = ("a/b/c", 0) :=
  ⟨by decide, claim_c4_amended "a/b/c" (by decide)⟩

/-! ### Claim C5 -/

/-- Claim C5, confirmed: the result string of `removeMajorVersionFromPath`
is exactly as described — every segment accepted by the version-segment
predicate is dropped, the remaining segments are kept in order and
rejoined with `/`, and a trailing quote is appended exactly when the last
`/`-delimited token of the input was an accepted segment ending in a
quote (`stripSpecString` renders this description verbatim). -/
theorem claim_c5 (path : String) :
    (removeMajorVersionFromPath path).1 = stripSpecString path := by
  have h1 : (removeMajorVersionFromPath path).1 =
      ⟨removeMajorVersionFromPathL path.data⟩ := rfl
  rw [h1, removeL_eq]
  rfl

/-! ### Claim C6 -/

/-- Claim C6, confirmed: `removeMajorVersionFromPath` is idempotent — on
the result of a first application, a second application returns that
result unchanged with a removed count of 0. -/
theorem claim_c6 (path : String) :
    removeMajorVersionFromPath ((removeMajorVersionFromPath path).1) =
      ((removeMajorVersionFromPath path).1, 0) :=
  strip_fixed_of_id (removeL_idem path.data)

/-! ### Claim C7 -/

/-- Claim C7, counterexample: the input `v2/x` contains a `/` character,
yet `isVNPart` returns `true` on it (the scanner never reads past the
digits), contradicting the claim that any input containing `/` is
rejected. -/
theorem claim_c7_counterexample :
    ('/' ∈ "v2/x".data) ∧ isVNPart "v2/x" = true := by
  constructor
  · decide
  · rfl

/-- Claim C7, amended: `isVNPart` returns false for every input string
that STARTS WITH a `/` character (the scanner rejects it at the leading
`v` of the format); a `/` occurring after an accepted `v<digits>` prefix
does not cause rejection. -/
theorem claim_c7_amended (s : String) (h : s.data.head? = some '/') :
    isVNPart s = false := by
  cases hd : s.data with
  | nil =>
    rw [hd] at h
    exact absurd h (by simp)
  | cons c cs =>
    rw [hd] at h
    have hc : c = '/' := by simpa using h
    subst hc
    simp [isVNPart, hd, isVNPartL]

/-- Claim C7, witness for the amended theorem at the input `/v44` (also a
test vector of the repository's own test file). -/
theorem claim_c7_witness :
    ("/v44".data.head? = some '/') ∧ isVNPart "/v44" = false :=
  ⟨rfl, claim_c7_amended "/v44" rfl⟩

/-! ### Claim C8 -/

/-- Claim C8, confirmed: for every input path, the length of the result of
`removeMajorVersionFromPath` plus the returned removed count equals the
length of the input (the count is computed as exactly this difference). -/
theorem claim_c8 (path : String) :
    ((removeMajorVersionFromPath path).1.length : Int) +
      (removeMajorVersionFromPath path).2 = (path.length : Int) := by
  show ((removeMajorVersionFromPathL path.data).length : Int) +
    ((path.length : Int) - ((removeMajorVersionFromPathL path.data).length : Int)) =
    (path.length : Int)
  omega

/-! ### Claim C9 -/

/-- Claim C9, confirmed: after any call to `Import`, the receiver's
`stdImporter` field holds `some` handle — the pre-existing one when the
field was already populated (no re-creation), and the freshly created one
exactly when the field was nil (lazy initialization on first use; the
field is never written anywhere else). -/
theorem claim_c9 (env : Env) (st : ImpState) (path : String) :
    (Import env st path).2.1 = ImpState.mk (some (handleAfterInit env st)) :=
  import_state_eq env st path

end MmcImporter
namespace MmcImporter

/-! ### Claim C10 -/

/-- Claim C10, counterexample: for the input `v2"` every `/`-separated
segment is accepted by the version-segment predicate and the final segment
ends with a quote, so the result is the lone quote `"` — but the removed
count is 2, NOT the full input length 3 as the claim states. -/
theorem claim_c10_counterexample :
    (((splitOnSlash ("v2\"".data)).all isVNPartL) = true) ∧
      (removeMajorVersionFromPath "v2\"").2 ≠ ("v2\"".length : Int) := by
  constructor
  · rfl
  · decide

/-- Claim C10, amended: for every input path all of whose `/`-separated
segments are accepted by the version-segment predicate,
`removeMajorVersionFromPath` returns the empty string with a removed count
equal to the full input length when no quote needs restoring, and the lone
quote `"` with a removed count of the input length MINUS ONE when the
final segment ended with a quote. -/
theorem claim_c10_amended (path : String)
    (h : ∀ p ∈ splitOnSlash path.data, isVNPartL p = true) :
    removeMajorVersionFromPath path =
      (if endQuoteSpec (splitOnSlash path.data) then
        (("\"" : String), (path.length : Int) - 1)
      else
        (("" : String), (path.length : Int))) := by
  have hR := removeL_all_vn h
  simp only [removeMajorVersionFromPath, hR]
  cases hq : endQuoteSpec (splitOnSlash path.data)
  · simp only [Bool.false_eq_true, if_false]
    have h2 : (path.length : Int) - (([] : List Char).length : Int) =
        (path.length : Int) := by
      simp
    rw [h2]
  · simp only [if_true]
    have h2 : (path.length : Int) - ((['"'] : List Char).length : Int) =
        (path.length : Int) - 1 := by
      simp
    rw [h2]

/-- Claim C10, witness for the amended theorem at the path `v2`. -/
theorem claim_c10_witness :
    (∀ p ∈ splitOnSlash ("v2".data), isVNPartL p = true) ∧
      removeMajorVersionFromPath "v2" =
        (if endQuoteSpec (splitOnSlash ("v2".data)) then
          (("\"" : String), ("v2".length : Int) - 1)
        else
          (("" : String), ("v2".length : Int))) :=
  ⟨by decide, claim_c10_amended "v2" (by decide)⟩

end MmcImporter
